import Mathlib

/-!
Verification of the rustlings fork's watch/verify engine (`src/main.rs`)
against its design specification. The data model and operations below are a
shallow embedding of the Rust source: lists of exercise descriptors, the
fail-fast initial scan of `watch`, the event-driven reverification subset,
the `find_exercise` identifier resolution, the `MyVerify` batch report, and
the quit-flag polling of the scheduler loop. Functions of modules that are
not part of the given source tree (`verify.rs`, `exercise.rs`, the
ANSI-stripping helper) are modelled from the specification and marked as
such in their doc comments.
-/

namespace Rustlings

/-- An exercise descriptor as used by `main.rs`: name, file path (as a list
of path components, mirroring `PathBuf`), and hint text. The done-predicate
`looks_done` and the verification outcome are functions of the current file
system state, so they are passed separately as function arguments wherever
`main.rs` calls them. -/
structure Exercise where
  name : String
  path : List String
  hint : String
deriving DecidableEq

/-- The `WatchStatus` enum of `main.rs`. -/
inductive WatchStatus where
  | finished
  | unfinished
deriving DecidableEq

/-- Result of one call of `verify` for an exercise: `Ok(_)` or
`Err(ExerciseFailed)` carrying the captured failure message. -/
inductive VerifyResult where
  | ok
  | failed (msg : String)
deriving DecidableEq

/-- Whether a `VerifyResult` is a success. -/
def VerifyResult.isOk : VerifyResult → Bool
  | .ok => true
  | .failed _ => false

/-- Done count of the initial scan of `watch` (main.rs lines 484-510): walk
the catalog in order, increment `num_done` on each success, `break` on the
first failure. -/
def scanNumDone (verifyOk : Exercise → Bool) : List Exercise → Nat
  | [] => 0
  | e :: rest => if verifyOk e then scanNumDone verifyOk rest + 1 else 0

/-- The exercises the initial scan actually verifies, in order: every
exercise before the first failure, plus the failing one where `watch`
breaks. -/
def scanExecuted (verifyOk : Exercise → Bool) : List Exercise → List Exercise
  | [] => []
  | e :: rest => if verifyOk e then e :: scanExecuted verifyOk rest else [e]

/-- What `watch` does right after the initial scan (main.rs line 512):
return `Finished` when every exercise verified, otherwise fall through to
the event loop (modelled as `none`). -/
def initialScanStatus (exercises : List Exercise) (verifyOk : Exercise → Bool) :
    Option WatchStatus :=
  if scanNumDone verifyOk exercises = exercises.length then some .finished else none

/-- Result of `find_exercise` (main.rs lines 438-457). The catalog-exhausted
arm of the source prints a congratulatory message and terminates the
process; the unknown-name arm prints an error and terminates. Both are
handled exits, not panics, and are kept distinct here. -/
inductive FindResult where
  | found (e : Exercise)
  | catalogExhausted
  | unknownName (name : String)
deriving DecidableEq

/-- `find_exercise` from main.rs: the literal token `next` resolves to the
first exercise whose `looks_done` is false, exhaustion of the catalog being
the congratulatory terminal case; any other name is an exact-name lookup. -/
def find_exercise (name : String) (exercises : List Exercise)
    (looksDone : Exercise → Bool) : FindResult :=
  if name = "next" then
    match exercises.find? (fun e => !looksDone e) with
    | some e => .found e
    | none => .catalogExhausted
  else
    match exercises.find? (fun e => e.name == name) with
    | some e => .found e
    | none => .unknownName name

/-- `filepath.ends_with(&e.path)` from main.rs line 526: `Path::ends_with`
is a component-wise suffix test of the canonicalized changed path against
the exercise's path. -/
def matchesPath (filepath : List String) (e : Exercise) : Bool :=
  e.path.isSuffixOf filepath

/-- The `pending_exercises` iterator of main.rs lines 524-532: the first
exercise whose path matches the changed file (if any), chained with every
exercise that is currently not done and does not match the changed path.
The head match checks only the path, never `looks_done`; the tail
recomputes `looks_done` at event-handling time. -/
def pendingExercises (exercises : List Exercise) (looksDone : Exercise → Bool)
    (filepath : List String) : List Exercise :=
  (exercises.find? (fun e => matchesPath filepath e)).toList ++
    exercises.filter (fun e => !looksDone e && !matchesPath filepath e)

/-- The reverification pass of main.rs lines 541-569 as a fold over the
shared hint state: on success continue, on the first failure store that
exercise's hint in `failed_exercise_hint` and `break`. The failure is
consumed here; no error propagates out of the pass. Note the source has no
arm that clears the hint when every exercise of the subset passes. -/
def reverifyHint (verifyR : Exercise → VerifyResult) :
    List Exercise → Option String → Option String
  | [], hint => hint
  | e :: rest, hint =>
    match verifyR e with
    | .ok => reverifyHint verifyR rest hint
    | .failed _ => some e.hint

/-- The exercises a reverification pass actually verifies, in order:
everything before the first failure, plus the failing one. -/
def reverifyExecuted (verifyR : Exercise → VerifyResult) :
    List Exercise → List Exercise
  | [] => []
  | e :: rest =>
    match verifyR e with
    | .ok => e :: reverifyExecuted verifyR rest
    | .failed _ => [e]

/-- The debounced-event kinds of the `notify` crate that main.rs line 521
matches on; every other kind falls into the silent `_ => {}` arm. -/
inductive EventKind where
  | create
  | chmod
  | write
  | other
deriving DecidableEq

/-- A change event as handled by the watch loop: kind, canonicalized path
components, and the two facts the guard of main.rs line 522 queries about
the path (`.rs` extension, existence at handling time). -/
structure WatchEvent where
  kind : EventKind
  filepath : List String
  hasRsExt : Bool
  fileExists : Bool
deriving DecidableEq

/-- The guard of main.rs lines 521-522: the event kind is Create, Chmod or
Write, the file has the `.rs` extension, and it still exists at handling
time. -/
def qualifies (ev : WatchEvent) : Bool :=
  (ev.kind == .create || ev.kind == .chmod || ev.kind == .write)
    && ev.hasRsExt && ev.fileExists

/-- Handling of one received event (main.rs lines 520-571): when the guard
holds, build the pending subset, recount done exercises from their own
predicate, return `Finished` if all are done, otherwise run the fail-fast
reverification pass over the subset, updating the shared hint. Returns the
terminal status (if any) and the new hint state. -/
def handleEvent (exercises : List Exercise) (looksDone : Exercise → Bool)
    (verifyR : Exercise → VerifyResult) (ev : WatchEvent) (hint : Option String) :
    Option WatchStatus × Option String :=
  if qualifies ev then
    if (exercises.filter looksDone).length = exercises.length then (some .finished, hint)
    else (none,
      reverifyHint verifyR (pendingExercises exercises looksDone ev.filepath) hint)
  else (none, hint)

/-- One `rx.recv_timeout(1s)` outcome fed to an iteration of the watch
loop: either a received event or the timeout tick. -/
def eventStep (exercises : List Exercise) (looksDone : Exercise → Bool)
    (verifyR : Exercise → VerifyResult) (input : Option WatchEvent)
    (hint : Option String) : Option WatchStatus × Option String :=
  match input with
  | some ev => handleEvent exercises looksDone verifyR ev hint
  | none => (none, hint)

/-- One iteration of the watch loop of main.rs lines 518-583: handle the
received input to completion (an early `return Finished` is possible inside
the event arm), then and only then poll the shared quit flag; if it is set,
return `Unfinished`. -/
def loopIter (exercises : List Exercise) (looksDone : Exercise → Bool)
    (verifyR : Exercise → VerifyResult) (input : Option WatchEvent)
    (hint : Option String) (quit : Bool) : Option WatchStatus × Option String :=
  match eventStep exercises looksDone verifyR input hint with
  | (some st, h) => (some st, h)
  | (none, h) => if quit then (some .unfinished, h) else (none, h)

/-- `ExerciseResult` of main.rs lines 137-141. -/
structure ExerciseResult where
  name : String
  result : Bool
deriving DecidableEq

/-- `ExerciseStatistics` of main.rs lines 143-148. -/
structure ExerciseStatistics where
  total_exercations : Nat
  total_succeeds : Nat
  total_failures : Nat
deriving DecidableEq

/-- `ExerciseCheckList` of main.rs lines 130-135. -/
structure ExerciseCheckList where
  exercises : List ExerciseResult
  user_name : Option String
  statistics : ExerciseStatistics
deriving DecidableEq

/-- The record one batch unit pushes on completion (main.rs lines 312-317
and 333-338): the exercise's name together with the success of its `run`. -/
def batchUnitResult (runOk : Exercise → Bool) (e : Exercise) : ExerciseResult :=
  { name := e.name, result := runOk e }

/-- The `ExerciseCheckList` assembled by the `MyVerify` branch after every
spawned task has been awaited (main.rs lines 284-353). `completionOrder` is
the order in which the concurrent units completed and pushed their records;
`total_exercations` was fixed to the catalog size before any unit ran, and
each unit increments exactly one of the two counters. -/
def batchReport (checkExercises : List Exercise) (completionOrder : List Exercise)
    (runOk : Exercise → Bool) : ExerciseCheckList :=
  { exercises := completionOrder.map (batchUnitResult runOk)
    user_name := none
    statistics :=
      { total_exercations := checkExercises.length
        total_succeeds := (completionOrder.filter (fun e => runOk e)).length
        total_failures := (completionOrder.filter (fun e => !runOk e)).length } }

/-- The fixed output path of the batch report (main.rs line 354), as path
components. -/
def checkResultPath : List String := [".github", "result", "check_result.json"]

set_option linter.unusedVariables false in
/-- The `MyVerify` branch of `main` (main.rs lines 274-355): the catalog
loaded from `info.toml` at startup is discarded (the local `exercises` is
reassigned from `check.toml` before any use), the batch is run over the
`check.toml` list, and the report is written to the fixed path. Returns the
written path and the report. -/
def myVerifyCommand (sessionCatalog checkCatalog completionOrder : List Exercise)
    (runOk : Exercise → Bool) : List String × ExerciseCheckList :=
  (checkResultPath, batchReport checkCatalog completionOrder runOk)

/-- The ASCII escape character that introduces an ANSI control sequence. -/
def escChar : Char := Char.ofNat 27

/-- A byte in `0x40..=0x7e` terminates a CSI control sequence. -/
def isCsiFinal (c : Char) : Bool := 0x40 ≤ c.toNat && c.toNat ≤ 0x7e

/-- Parser state of the modelled ANSI stripper: ordinary text, just after
an escape character, or inside a CSI sequence. -/
inductive StripState where
  | ground
  | escape
  | csi
deriving DecidableEq

/-- Modelled from the spec: the `strip_ansi_escapes::strip` helper called
at main.rs lines 500 and 560 is an external crate whose source is not under
`src/`. Per the specification it removes terminal color/control escape
sequences from captured output. State machine: in ground state an escape
character starts a sequence and every other character is kept; after the
escape, `[` opens a CSI sequence (any other character ends a two-character
escape); inside a CSI sequence everything up to and including the final
byte is dropped. -/
def stripGo : StripState → List Char → List Char
  | _, [] => []
  | .ground, c :: rest =>
    if c = escChar then stripGo .escape rest else c :: stripGo .ground rest
  | .escape, c :: rest =>
    if c = '[' then stripGo .csi rest else stripGo .ground rest
  | .csi, c :: rest =>
    if isCsiFinal c then stripGo .ground rest else stripGo .csi rest

/-- Modelled from the spec: sanitization of captured failure output, run
from the ground state. -/
def stripAnsiEscapes (s : List Char) : List Char := stripGo .ground s

/-- A chunk of captured output: either plain text or one ANSI CSI
color/control sequence. -/
inductive Chunk where
  | text (s : List Char)
  | colorCode (params : List Char) (final : Char)

/-- The raw characters of a chunk: plain text verbatim, a color code as
escape, `[`, parameter bytes, final byte. -/
def renderChunk : Chunk → List Char
  | .text s => s
  | .colorCode params final => escChar :: '[' :: (params ++ [final])

/-- Raw captured output assembled from chunks. -/
def renderChunks (chunks : List Chunk) : List Char :=
  (chunks.map renderChunk).flatten

/-- The plain text of a chunk list: the concatenation of its text chunks,
with every control sequence dropped. -/
def plainText : List Chunk → List Char
  | [] => []
  | .text s :: rest => s ++ plainText rest
  | .colorCode _ _ :: rest => plainText rest

/-- Well-formedness of a chunk: plain text holds no escape character, a
color code has non-final parameter bytes and a final byte. -/
def chunkWF : Chunk → Bool
  | .text s => s.all (fun c => !(c == escChar))
  | .colorCode params final =>
      params.all (fun c => !isCsiFinal c) && isCsiFinal final

/-- File system snapshot: contents of each path, `none` when absent. -/
structure FileSystem where
  contents : List String → Option String

/-- A verification outcome as the spec describes it: success flag and
(sanitized) message. -/
structure VerificationOutcome where
  success : Bool
  message : String
deriving DecidableEq

/-- Modelled from the spec: `verify.rs` is not under `src/`. Per the
specification the Verifier wraps the Process Runner's outcome for the
descriptor's derived command, and the outcome is a deterministic pure
function (`toolchain`) of the descriptor and the current contents of the
exercise's own file. -/
def verifyOutcome (toolchain : Exercise → Option String → VerificationOutcome)
    (e : Exercise) (fs : FileSystem) : VerificationOutcome :=
  toolchain e (fs.contents e.path)

/-- Modelled from the spec: the `looks_done` predicate of `exercise.rs`
(not under `src/`) is a pure predicate over the exercise file's current
contents, safe to call repeatedly. -/
def looksDoneFS (donePred : Exercise → Option String → Bool)
    (e : Exercise) (fs : FileSystem) : Bool :=
  donePred e (fs.contents e.path)

/-- A sample exercise used in concrete witnesses. -/
def exA : Exercise := ⟨"intro1", ["exercises", "intro", "intro1.rs"], "hint A"⟩

/-- A second sample exercise used in concrete witnesses. -/
def exB : Exercise := ⟨"intro2", ["exercises", "intro", "intro2.rs"], "hint B"⟩

/-- A third sample exercise used in concrete witnesses. -/
def exC : Exercise := ⟨"variables1", ["exercises", "variables", "variables1.rs"], "hint C"⟩

/-- A sample verifier used in concrete witnesses: every exercise passes
except `intro2`. -/
def sampleVerify : Exercise → VerifyResult :=
  fun e => if e.name == "intro2" then .failed "boom" else .ok

/-- Helper: `find?` skips a block in which the predicate fails everywhere. -/
theorem find?_append_of_all_false {α : Type} {p : α → Bool} :
    ∀ {l₁ l₂ : List α}, (∀ x ∈ l₁, p x = false) →
      (l₁ ++ l₂).find? p = l₂.find? p := by
  intro l₁
  induction l₁ with
  | nil => intro l₂ _; rfl
  | cons a t ih =>
    intro l₂ h
    have ha : p a = false := h a (List.mem_cons_self a t)
    rw [List.cons_append, List.find?_cons_of_neg _ (by simp [ha])]
    exact ih (fun x hx => h x (List.mem_cons_of_mem a hx))

/-- Helper: `find?` over a list where the predicate fails everywhere. -/
theorem find?_eq_none_of_all_false {α : Type} {p : α → Bool} :
    ∀ {l : List α}, (∀ x ∈ l, p x = false) → l.find? p = none := by
  intro l h
  have := @find?_append_of_all_false α p l [] h
  simpa using this

/-- Helper: when exactly the element `E` satisfies the predicate on `l` and
`E` occurs in `l`, `find?` returns `E`. -/
theorem find?_eq_some_of_uniq {α : Type} [DecidableEq α] {p : α → Bool} {E : α} :
    ∀ {l : List α}, E ∈ l → (∀ x ∈ l, p x = (x == E)) → l.find? p = some E := by
  intro l
  induction l with
  | nil => intro h; exact absurd h (List.not_mem_nil E)
  | cons a t ih =>
    intro hmem hp
    by_cases ha : a = E
    · subst ha
      have hpa : p a = true := by
        rw [hp a (List.mem_cons_self a t)]; exact beq_self_eq_true a
      rw [List.find?_cons_of_pos _ hpa]
    · have hpa : p a = false := by
        rw [hp a (List.mem_cons_self a t)]
        exact beq_eq_false_iff_ne.mpr ha
      rw [List.find?_cons_of_neg _ (by simp [hpa])]
      have hmt : E ∈ t := by
        rcases List.mem_cons.mp hmem with h | h
        · exact absurd h.symm ha
        · exact h
      exact ih hmt (fun x hx => hp x (List.mem_cons_of_mem a hx))

/-- C2: the initial scan of watch mode verifies exercises in catalog order
and halts at the first failure: the set of exercises actually verified is
the longest all-success prefix plus the first failing exercise when one
exists; the resulting done count equals the length of the longest
all-success prefix; and the scan reports `Finished` exactly when that count
is the whole catalog. -/
theorem initial_scan_fail_fast (exercises : List Exercise) (verifyOk : Exercise → Bool) :
    scanNumDone verifyOk exercises = (exercises.takeWhile verifyOk).length
    ∧ scanExecuted verifyOk exercises =
        exercises.takeWhile verifyOk ++ (exercises.dropWhile verifyOk).take 1
    ∧ (initialScanStatus exercises verifyOk = some .finished ↔
        scanNumDone verifyOk exercises = exercises.length) := by
  refine ⟨?_, ?_, ?_⟩
  · induction exercises with
    | nil => rfl
    | cons e rest ih =>
      by_cases h : verifyOk e = true
      · simp [scanNumDone, List.takeWhile_cons, h, ih]
      · simp only [Bool.not_eq_true] at h
        simp [scanNumDone, List.takeWhile_cons, h]
  · induction exercises with
    | nil => rfl
    | cons e rest ih =>
      by_cases h : verifyOk e = true
      · simp [scanExecuted, List.takeWhile_cons, List.dropWhile_cons, h, ih]
      · simp only [Bool.not_eq_true] at h
        simp [scanExecuted, List.takeWhile_cons, List.dropWhile_cons, h]
  · unfold initialScanStatus
    by_cases h : scanNumDone verifyOk exercises = exercises.length
    · simp [h]
    · simp [h]

/-- C5: `next` resolves to the first not-done exercise in catalog order: if
a prefix of done exercises is followed by a not-done exercise `e`, the
result is `found e`; and if every exercise is done, the result is the
`catalogExhausted` congratulatory terminal value, not a crash. -/
theorem find_next_resolution (donePart rest exercises : List Exercise)
    (e : Exercise) (looksDone : Exercise → Bool) :
    ((∀ d ∈ donePart, looksDone d = true) → looksDone e = false →
      find_exercise "next" (donePart ++ e :: rest) looksDone = .found e)
    ∧ ((∀ d ∈ exercises, looksDone d = true) →
      find_exercise "next" exercises looksDone = .catalogExhausted) := by
  constructor
  · intro hdone he
    unfold find_exercise
    rw [if_pos rfl]
    rw [find?_append_of_all_false (fun x hx => by simp [hdone x hx])]
    simp [List.find?, he]
  · intro hall
    unfold find_exercise
    rw [if_pos rfl]
    rw [find?_eq_none_of_all_false (fun x hx => by simp [hall x hx])]

/-- Witness for `initial_scan_fail_fast` at a concrete catalog where the
second exercise fails. -/
theorem initial_scan_fail_fast_witness :
    scanNumDone (fun e => e.name == "intro1") [exA, exB, exC] = 1
    ∧ scanExecuted (fun e => e.name == "intro1") [exA, exB, exC] = [exA, exB]
    ∧ initialScanStatus [exA, exB, exC] (fun e => e.name == "intro1") = none := by
  have h := initial_scan_fail_fast [exA, exB, exC] (fun e => e.name == "intro1")
  refine ⟨?_, ?_, ?_⟩
  · rw [h.1]; decide
  · rw [h.2.1]; decide
  · have h3 := h.2.2
    by_cases hfin : initialScanStatus [exA, exB, exC] (fun e => e.name == "intro1")
        = some .finished
    · exact absurd (h3.mp hfin) (by decide)
    · cases hval : initialScanStatus [exA, exB, exC] (fun e => e.name == "intro1") with
      | none => rfl
      | some s =>
        cases s with
        | finished => exact absurd hval hfin
        | unfinished => exact absurd hval (by decide)

/-- Witness for `find_next_resolution`: with `exA` done and `exB` not,
`next` resolves to `exB`; with all three done, the result is
`catalogExhausted`. -/
theorem find_next_resolution_witness :
    find_exercise "next" [exA, exB, exC] (fun e => e.name == "intro1") = .found exB
    ∧ find_exercise "next" [exA, exB, exC] (fun _ => true) = .catalogExhausted := by
  have h1 := (find_next_resolution [exA] [exC] [] exB (fun e => e.name == "intro1")).1
    (by decide) (by decide)
  have h2 := (find_next_resolution [] [] [exA, exB, exC] exB (fun _ => true)).2
    (by intro d _; rfl)
  exact ⟨h1, h2⟩

/-- Helper: a reverification pass walks through an all-passing block of the
subset without touching the hint. -/
theorem reverifyHint_append_ok (verifyR : Exercise → VerifyResult)
    (pre l : List Exercise) (hint : Option String)
    (hpre : ∀ e ∈ pre, verifyR e = .ok) :
    reverifyHint verifyR (pre ++ l) hint = reverifyHint verifyR l hint := by
  induction pre with
  | nil => rfl
  | cons a t ih =>
    have ha : verifyR a = .ok := hpre a (List.mem_cons_self a t)
    rw [List.cons_append]
    simp only [reverifyHint, ha]
    exact ih (fun e he => hpre e (List.mem_cons_of_mem a he))

/-- Helper: a reverification pass executes every member of an all-passing
block of the subset, in order, then continues. -/
theorem reverifyExecuted_append_ok (verifyR : Exercise → VerifyResult)
    (pre l : List Exercise)
    (hpre : ∀ e ∈ pre, verifyR e = .ok) :
    reverifyExecuted verifyR (pre ++ l) = pre ++ reverifyExecuted verifyR l := by
  induction pre with
  | nil => rfl
  | cons a t ih =>
    have ha : verifyR a = .ok := hpre a (List.mem_cons_self a t)
    rw [List.cons_append, List.cons_append]
    simp only [reverifyExecuted, ha]
    rw [ih (fun e he => hpre e (List.mem_cons_of_mem a he))]

/-- C1: when the changed path matches exactly the not-done exercise `E` of
the catalog, the reverification subset is `E` first, followed by every
other exercise that is currently not done (per its own done-predicate,
evaluated at event-handling time), in catalog order, and `E` occurs in the
subset exactly once. -/
theorem watch_event_subset_not_done (exercises : List Exercise)
    (looksDone : Exercise → Bool) (filepath : List String) (E : Exercise)
    (hmem : E ∈ exercises)
    (hmatch : ∀ e ∈ exercises, matchesPath filepath e = (e == E))
    (_hnd : looksDone E = false) :
    pendingExercises exercises looksDone filepath
      = E :: exercises.filter (fun e => !looksDone e && !(e == E))
    ∧ (pendingExercises exercises looksDone filepath).count E = 1 := by
  have hfind : exercises.find? (fun e => matchesPath filepath e) = some E :=
    find?_eq_some_of_uniq hmem hmatch
  have hfilter : exercises.filter (fun e => !looksDone e && !matchesPath filepath e)
      = exercises.filter (fun e => !looksDone e && !(e == E)) := by
    apply List.filter_congr
    intro x hx
    rw [hmatch x hx]
  have hmain : pendingExercises exercises looksDone filepath
      = E :: exercises.filter (fun e => !looksDone e && !(e == E)) := by
    unfold pendingExercises
    rw [hfind, hfilter]
    rfl
  refine ⟨hmain, ?_⟩
  rw [hmain]
  have hnotmem : E ∉ exercises.filter (fun e => !looksDone e && !(e == E)) := by
    intro hmem2
    have hcond := (List.mem_filter.mp hmem2).2
    simp at hcond
  rw [List.count_cons_self, List.count_eq_zero.mpr hnotmem]

/-- Witness for `watch_event_subset_not_done`: a change to the not-done
`intro2.rs` puts `exB` at the head, followed by the only other not-done
exercise `exC`. -/
theorem watch_event_subset_not_done_witness :
    pendingExercises [exA, exB, exC] (fun e => e.name == "intro1")
        ["root", "exercises", "intro", "intro2.rs"] = [exB, exC]
    ∧ (pendingExercises [exA, exB, exC] (fun e => e.name == "intro1")
        ["root", "exercises", "intro", "intro2.rs"]).count exB = 1 := by
  have h := watch_event_subset_not_done [exA, exB, exC] (fun e => e.name == "intro1")
    ["root", "exercises", "intro", "intro2.rs"] exB (by decide) (by decide) (by decide)
  refine ⟨?_, h.2⟩
  rw [h.1]
  decide

/-- C9: when the changed path matches an exercise `E` that is already done,
`E` is still placed at the head of the reverification subset (the head
match is by path only) and is the first exercise the pass re-verifies; the
tail is every not-done exercise in catalog order. -/
theorem watch_event_done_head_reverified (exercises : List Exercise)
    (looksDone : Exercise → Bool) (filepath : List String) (E : Exercise)
    (hmem : E ∈ exercises)
    (hmatch : ∀ e ∈ exercises, matchesPath filepath e = (e == E))
    (hd : looksDone E = true) :
    pendingExercises exercises looksDone filepath
      = E :: exercises.filter (fun e => !looksDone e)
    ∧ ∀ verifyR : Exercise → VerifyResult,
        (reverifyExecuted verifyR (pendingExercises exercises looksDone filepath)).head?
          = some E := by
  have hfind : exercises.find? (fun e => matchesPath filepath e) = some E :=
    find?_eq_some_of_uniq hmem hmatch
  have hfilter : exercises.filter (fun e => !looksDone e && !matchesPath filepath e)
      = exercises.filter (fun e => !looksDone e) := by
    apply List.filter_congr
    intro x hx
    rw [hmatch x hx]
    by_cases hxE : x = E
    · subst hxE; simp [hd]
    · simp [beq_eq_false_iff_ne.mpr hxE]
  have hmain : pendingExercises exercises looksDone filepath
      = E :: exercises.filter (fun e => !looksDone e) := by
    unfold pendingExercises
    rw [hfind, hfilter]
    rfl
  refine ⟨hmain, ?_⟩
  intro verifyR
  rw [hmain]
  cases hvE : verifyR E <;> simp [reverifyExecuted, hvE]

/-- Witness for `watch_event_done_head_reverified`: a change to the done
`intro1.rs` still puts `exA` at the head, and the pass re-verifies `exA`
first. -/
theorem watch_event_done_head_reverified_witness :
    pendingExercises [exA, exB, exC] (fun e => e.name == "intro1")
        ["root", "exercises", "intro", "intro1.rs"] = [exA, exB, exC]
    ∧ (reverifyExecuted sampleVerify
        (pendingExercises [exA, exB, exC] (fun e => e.name == "intro1")
          ["root", "exercises", "intro", "intro1.rs"])).head? = some exA := by
  have h := watch_event_done_head_reverified [exA, exB, exC] (fun e => e.name == "intro1")
    ["root", "exercises", "intro", "intro1.rs"] exA (by decide) (by decide) (by decide)
  refine ⟨?_, h.2 sampleVerify⟩
  rw [h.1]
  decide

/-- C4 counterexample: the claim says the current-failure hint is cleared
when every exercise of the subset passes; in the source (main.rs lines
541-569) the success arm never touches `failed_exercise_hint`, so after an
all-passing pass over `[exB]` a previously stored hint is still present,
not cleared. -/
theorem reverify_all_pass_keeps_hint :
    (∀ e ∈ [exB], (fun _ => VerifyResult.ok) e = VerifyResult.ok)
    ∧ reverifyHint (fun _ => VerifyResult.ok) [exB] (some "hint A") = some "hint A"
    ∧ reverifyHint (fun _ => VerifyResult.ok) [exB] (some "hint A") ≠ none := by
  refine ⟨by decide, by decide, by decide⟩

/-- C4 (amended): a reverification pass is fail-fast: when a prefix of the
subset passes and the next exercise fails, the pass stops there, the shared
hint is set to that exercise's hint, and the failure is absorbed into the
hint state (no error escapes); when every exercise of the subset passes,
the hint keeps its previous value (the source never clears it). -/
theorem reverify_pass_amended (verifyR : Exercise → VerifyResult)
    (subset : List Exercise) (hint0 : Option String) :
    ((∀ e ∈ subset, verifyR e = .ok) →
      reverifyHint verifyR subset hint0 = hint0
      ∧ reverifyExecuted verifyR subset = subset)
    ∧ (∀ pre f post, subset = pre ++ f :: post →
        (∀ e ∈ pre, verifyR e = .ok) → (verifyR f).isOk = false →
        reverifyHint verifyR subset hint0 = some f.hint
        ∧ reverifyExecuted verifyR subset = pre ++ [f]) := by
  constructor
  · intro hall
    constructor
    · have h := reverifyHint_append_ok verifyR subset [] hint0 hall
      simpa using h
    · have h := reverifyExecuted_append_ok verifyR subset [] hall
      simpa [reverifyExecuted] using h
  · intro pre f post hsub hpre hf
    subst hsub
    cases hvf : verifyR f with
    | ok =>
      rw [hvf] at hf
      exact absurd hf (by simp [VerifyResult.isOk])
    | failed msg =>
      constructor
      · rw [reverifyHint_append_ok verifyR pre (f :: post) hint0 hpre]
        simp only [reverifyHint, hvf]
      · rw [reverifyExecuted_append_ok verifyR pre (f :: post) hpre]
        simp only [reverifyExecuted, hvf]

/-- Witness for `reverify_pass_amended`: with `intro2` the only failing
exercise, a pass over the subset `[exA, exB, exC]` stops at `exB`, stores
its hint, and never reaches `exC`; a pass over the all-passing `[exA]`
keeps the previous hint. -/
theorem reverify_pass_amended_witness :
    reverifyHint sampleVerify [exA, exB, exC] none = some "hint B"
    ∧ reverifyExecuted sampleVerify [exA, exB, exC] = [exA, exB]
    ∧ reverifyHint sampleVerify [exA] (some "old") = some "old" := by
  have h := (reverify_pass_amended sampleVerify [exA, exB, exC] none).2
    [exA] exB [exC] rfl (by decide) (by decide)
  have h2 := (reverify_pass_amended sampleVerify [exA] (some "old")).1 (by decide)
  exact ⟨h.1.trans (by decide), h.2, h2.1⟩

/-- C7 counterexample: the claim says that once the quit flag is set the
loop returns `Unfinished` within one polling interval; but the quit flag is
polled only after the received event is handled, and the event arm can
return `Finished` first (main.rs lines 536-539): with a one-exercise
catalog whose exercise is done and a qualifying event, the iteration
returns `Finished` even though the quit flag is set. -/
theorem quit_event_returns_finished :
    loopIter [exA] (fun _ => true) (fun _ => VerifyResult.ok)
        (some ⟨.write, ["exercises", "intro", "intro1.rs"], true, true⟩) none true
      = (some .finished, none)
    ∧ WatchStatus.finished ≠ WatchStatus.unfinished := by
  exact ⟨by decide, by decide⟩

/-- C7 (amended): once the quit flag is set, an iteration of the watch loop
always terminates the loop: on a timeout tick it returns `Unfinished`
carrying the unchanged hint; whenever the event handling does not itself
return a status, the iteration returns `Unfinished` with the hint the
handling produced; the event handling can only ever contribute `Finished`;
and the verification work of the iteration (the resulting hint state) is
identical whether or not the quit flag is set — an in-flight pass is never
interrupted by quitting. -/
theorem quit_bounded_termination (exercises : List Exercise)
    (looksDone : Exercise → Bool) (verifyR : Exercise → VerifyResult)
    (input : Option WatchEvent) (hint0 : Option String) :
    (loopIter exercises looksDone verifyR input hint0 true).1 ≠ none
    ∧ loopIter exercises looksDone verifyR none hint0 true = (some .unfinished, hint0)
    ∧ ((eventStep exercises looksDone verifyR input hint0).1 = none →
        loopIter exercises looksDone verifyR input hint0 true
          = (some .unfinished, (eventStep exercises looksDone verifyR input hint0).2))
    ∧ ((eventStep exercises looksDone verifyR input hint0).1 = none
        ∨ (eventStep exercises looksDone verifyR input hint0).1 = some .finished)
    ∧ (loopIter exercises looksDone verifyR input hint0 true).2
        = (loopIter exercises looksDone verifyR input hint0 false).2 := by
  have hstatus : (eventStep exercises looksDone verifyR input hint0).1 = none
      ∨ (eventStep exercises looksDone verifyR input hint0).1 = some .finished := by
    cases input with
    | none => left; rfl
    | some ev =>
      have hred : eventStep exercises looksDone verifyR (some ev) hint0
          = handleEvent exercises looksDone verifyR ev hint0 := rfl
      rw [hred]
      unfold handleEvent
      split
      · split
        · right; rfl
        · left; rfl
      · left; rfl
  refine ⟨?_, ?_, ?_, hstatus, ?_⟩
  · rcases hstep : eventStep exercises looksDone verifyR input hint0 with ⟨fst, snd⟩
    cases fst with
    | none => simp [loopIter, hstep]
    | some st => simp [loopIter, hstep]
  · simp [loopIter, eventStep]
  · intro hnone
    rcases hstep : eventStep exercises looksDone verifyR input hint0 with ⟨fst, snd⟩
    rw [hstep] at hnone
    cases fst with
    | some st => exact absurd hnone (by simp)
    | none => simp [loopIter, hstep]
  · rcases hstep : eventStep exercises looksDone verifyR input hint0 with ⟨fst, snd⟩
    cases fst with
    | none => simp [loopIter, hstep]
    | some st => simp [loopIter, hstep]

/-- Witness for `quit_bounded_termination` at a concrete not-done catalog:
a timeout tick with the quit flag set returns `Unfinished` and an event
iteration's hint is the same with the flag set or clear. -/
theorem quit_bounded_termination_witness :
    loopIter [exA, exB] (fun _ => false) sampleVerify none (some "old") true
      = (some .unfinished, some "old")
    ∧ (loopIter [exA, exB] (fun _ => false) sampleVerify
        (some ⟨.write, ["exercises", "intro", "intro2.rs"], true, true⟩)
        (some "old") true).2
      = (loopIter [exA, exB] (fun _ => false) sampleVerify
        (some ⟨.write, ["exercises", "intro", "intro2.rs"], true, true⟩)
        (some "old") false).2 := by
  have h1 := (quit_bounded_termination [exA, exB] (fun _ => false) sampleVerify
    none (some "old")).2.1
  have h2 := (quit_bounded_termination [exA, exB] (fun _ => false) sampleVerify
    (some ⟨.write, ["exercises", "intro", "intro2.rs"], true, true⟩)
    (some "old")).2.2.2.2
  exact ⟨h1, h2⟩

/-- Helper: a filter and its negation split the length of a list. -/
theorem length_filter_add_length_filter_not {α : Type} (p : α → Bool) (l : List α) :
    (l.filter p).length + (l.filter (fun x => !p x)).length = l.length := by
  induction l with
  | nil => rfl
  | cons a t ih =>
    by_cases h : p a = true
    · simp [List.filter_cons, h]
      omega
    · simp only [Bool.not_eq_true] at h
      simp [List.filter_cons, h]
      omega

/-- C3: for any completion order of the concurrent batch units (any
permutation of the `check.toml` catalog), the assembled report satisfies:
succeeds plus failures equals the catalog size, failures equals the number
of exercises whose run fails, and — when catalog names are distinct — every
catalog exercise's name appears exactly once among the per-exercise
records. -/
theorem batch_report_counts_and_names (checkExercises completionOrder : List Exercise)
    (runOk : Exercise → Bool)
    (hperm : completionOrder.Perm checkExercises)
    (hnames : (checkExercises.map Exercise.name).Nodup) :
    (batchReport checkExercises completionOrder runOk).statistics.total_succeeds
        + (batchReport checkExercises completionOrder runOk).statistics.total_failures
      = checkExercises.length
    ∧ (batchReport checkExercises completionOrder runOk).statistics.total_failures
      = (checkExercises.filter (fun e => !runOk e)).length
    ∧ ∀ e ∈ checkExercises,
        ((batchReport checkExercises completionOrder runOk).exercises.map
          ExerciseResult.name).count e.name = 1 := by
  refine ⟨?_, ?_, ?_⟩
  · show (completionOrder.filter (fun e => runOk e)).length
        + (completionOrder.filter (fun e => !runOk e)).length = checkExercises.length
    rw [length_filter_add_length_filter_not]
    exact hperm.length_eq
  · exact (hperm.filter (fun e => !runOk e)).length_eq
  · intro e he
    have hmapeq : (batchReport checkExercises completionOrder runOk).exercises.map
        ExerciseResult.name = completionOrder.map Exercise.name := by
      show (completionOrder.map (batchUnitResult runOk)).map ExerciseResult.name = _
      rw [List.map_map]
      rfl
    rw [hmapeq]
    have hpermname : (completionOrder.map Exercise.name).Perm
        (checkExercises.map Exercise.name) := hperm.map _
    rw [hpermname.count_eq]
    exact List.count_eq_one_of_mem hnames (List.mem_map_of_mem _ he)

/-- Witness for `batch_report_counts_and_names`: two exercises, one
failing, completing in reverse catalog order. -/
theorem batch_report_counts_and_names_witness :
    (batchReport [exA, exB] [exB, exA] (fun e => e.name == "intro1")).statistics.total_succeeds
        + (batchReport [exA, exB] [exB, exA]
            (fun e => e.name == "intro1")).statistics.total_failures = 2
    ∧ (batchReport [exA, exB] [exB, exA]
        (fun e => e.name == "intro1")).statistics.total_failures = 1
    ∧ ((batchReport [exA, exB] [exB, exA] (fun e => e.name == "intro1")).exercises.map
        ExerciseResult.name).count exA.name = 1
    ∧ ((batchReport [exA, exB] [exB, exA] (fun e => e.name == "intro1")).exercises.map
        ExerciseResult.name).count exB.name = 1 := by
  have h := batch_report_counts_and_names [exA, exB] [exB, exA]
    (fun e => e.name == "intro1") (by decide) (by decide)
  exact ⟨h.1.trans (by decide), h.2.1.trans (by decide),
    h.2.2 exA (by decide), h.2.2 exB (by decide)⟩

/-- C10: the batch command's output is independent of the session catalog
loaded from `info.toml` (it is discarded); the report is written to the
fixed path `.github/result/check_result.json`; its per-exercise records are
exactly the `check.toml` exercises (as a permutation of their names); and
`total_exercations` equals the `check.toml` catalog size for every run
outcome and completion order. -/
theorem myverify_uses_check_manifest
    (sessionCatalog sessionCatalog2 checkCatalog completionOrder : List Exercise)
    (runOk : Exercise → Bool)
    (hperm : completionOrder.Perm checkCatalog) :
    myVerifyCommand sessionCatalog checkCatalog completionOrder runOk
      = myVerifyCommand sessionCatalog2 checkCatalog completionOrder runOk
    ∧ (myVerifyCommand sessionCatalog checkCatalog completionOrder runOk).1
      = [".github", "result", "check_result.json"]
    ∧ ((myVerifyCommand sessionCatalog checkCatalog completionOrder runOk).2.exercises.map
        ExerciseResult.name).Perm (checkCatalog.map Exercise.name)
    ∧ (myVerifyCommand sessionCatalog checkCatalog
        completionOrder runOk).2.statistics.total_exercations
      = checkCatalog.length := by
  refine ⟨rfl, rfl, ?_, rfl⟩
  show ((completionOrder.map (batchUnitResult runOk)).map ExerciseResult.name).Perm _
  have hcomp : (ExerciseResult.name ∘ batchUnitResult runOk) = Exercise.name := rfl
  rw [List.map_map, hcomp]
  exact hperm.map _

/-- Witness for `myverify_uses_check_manifest`: distinct session catalogs,
a two-exercise `check.toml` catalog completing in reverse order. -/
theorem myverify_uses_check_manifest_witness :
    myVerifyCommand [exC] [exA, exB] [exB, exA] (fun _ => true)
      = myVerifyCommand [] [exA, exB] [exB, exA] (fun _ => true)
    ∧ (myVerifyCommand [exC] [exA, exB] [exB, exA] (fun _ => true)).1
      = [".github", "result", "check_result.json"]
    ∧ ((myVerifyCommand [exC] [exA, exB] [exB, exA] (fun _ => true)).2.exercises.map
        ExerciseResult.name).Perm ([exA, exB].map Exercise.name)
    ∧ (myVerifyCommand [exC] [exA, exB] [exB, exA]
        (fun _ => true)).2.statistics.total_exercations = 2 := by
  have h := myverify_uses_check_manifest [exC] [] [exA, exB] [exB, exA]
    (fun _ => true) (by decide)
  exact ⟨h.1, h.2.1, h.2.2.1, h.2.2.2.trans (by decide)⟩

/-- C8: re-verifying an exercise whose own file is unchanged between two
file-system snapshots yields the identical verification outcome (success
flag and message), and its done-predicate evaluates identically; the
outcome depends only on the descriptor and that file's contents. -/
theorem verify_idempotent_unchanged_file
    (toolchain : Exercise → Option String → VerificationOutcome)
    (donePred : Exercise → Option String → Bool)
    (e : Exercise) (fsOne fsTwo : FileSystem)
    (hsame : fsOne.contents e.path = fsTwo.contents e.path) :
    verifyOutcome toolchain e fsOne = verifyOutcome toolchain e fsTwo
    ∧ looksDoneFS donePred e fsOne = looksDoneFS donePred e fsTwo := by
  unfold verifyOutcome looksDoneFS
  rw [hsame]
  exact ⟨rfl, rfl⟩

/-- Witness for `verify_idempotent_unchanged_file`: two snapshots that
agree on `exA`'s file but differ elsewhere give the same outcome for
`exA`. -/
theorem verify_idempotent_unchanged_file_witness :
    verifyOutcome (fun _ c => ⟨c.isSome, ""⟩) exA
        ⟨fun p => if p == exA.path then some "code" else none⟩
      = verifyOutcome (fun _ c => ⟨c.isSome, ""⟩) exA
        ⟨fun p => if p == exA.path then some "code" else some "junk"⟩
    ∧ looksDoneFS (fun _ c => c == some "code") exA
        ⟨fun p => if p == exA.path then some "code" else none⟩
      = looksDoneFS (fun _ c => c == some "code") exA
        ⟨fun p => if p == exA.path then some "code" else some "junk"⟩ := by
  exact verify_idempotent_unchanged_file (fun _ c => ⟨c.isSome, ""⟩)
    (fun _ c => c == some "code") exA
    ⟨fun p => if p == exA.path then some "code" else none⟩
    ⟨fun p => if p == exA.path then some "code" else some "junk"⟩
    (by decide)

/-- Helper: the stripper copies escape-free text verbatim and keeps
scanning. -/
theorem stripGo_ground_append (s rest : List Char)
    (hs : ∀ c ∈ s, (c == escChar) = false) :
    stripGo .ground (s ++ rest) = s ++ stripGo .ground rest := by
  induction s with
  | nil => rfl
  | cons a t ih =>
    have ha : ¬ a = escChar := by
      have hb := hs a (List.mem_cons_self a t)
      simpa using hb
    rw [List.cons_append, List.cons_append]
    simp only [stripGo, if_neg ha]
    rw [ih (fun c hc => hs c (List.mem_cons_of_mem a hc))]

/-- Helper: inside a CSI sequence the stripper drops every parameter byte
and the final byte, then returns to ground state. -/
theorem stripGo_csi_skip (params : List Char) (final : Char) (rest : List Char)
    (hp : ∀ c ∈ params, isCsiFinal c = false) (hf : isCsiFinal final = true) :
    stripGo .csi (params ++ final :: rest) = stripGo .ground rest := by
  induction params with
  | nil =>
    rw [List.nil_append]
    simp only [stripGo, hf, if_true]
  | cons a t ih =>
    have ha := hp a (List.mem_cons_self a t)
    rw [List.cons_append]
    simp only [stripGo, ha]
    simp only [Bool.false_eq_true, if_false]
    exact ih (fun c hc => hp c (List.mem_cons_of_mem a hc))

/-- Helper: the plain text of well-formed chunks holds no escape
character. -/
theorem escChar_not_mem_plainText :
    ∀ (chunks : List Chunk), (∀ ch ∈ chunks, chunkWF ch = true) →
      escChar ∉ plainText chunks := by
  intro chunks
  induction chunks with
  | nil => intro _ h; exact absurd h (List.not_mem_nil escChar)
  | cons ch rest ih =>
    intro hwf hmem
    cases ch with
    | text s =>
      rcases List.mem_append.mp hmem with h | h
      · have hs := hwf (.text s) (List.mem_cons_self _ rest)
        have := List.all_eq_true.mp hs escChar h
        simp at this
      · exact ih (fun c hc => hwf c (List.mem_cons_of_mem _ hc)) h
    | colorCode p f =>
      exact ih (fun c hc => hwf c (List.mem_cons_of_mem _ hc)) hmem

/-- C6: sanitizing captured output that is an interleaving of escape-free
text and ANSI CSI color/control sequences removes every sequence and keeps
exactly the plain text, which contains no residual escape character. -/
theorem strip_ansi_removes_sequences (chunks : List Chunk)
    (hwf : ∀ ch ∈ chunks, chunkWF ch = true) :
    stripAnsiEscapes (renderChunks chunks) = plainText chunks
    ∧ escChar ∉ plainText chunks := by
  refine ⟨?_, escChar_not_mem_plainText chunks hwf⟩
  unfold stripAnsiEscapes
  induction chunks with
  | nil => rfl
  | cons ch rest ih =>
    have hrest := ih (fun c hc => hwf c (List.mem_cons_of_mem _ hc))
    have hch := hwf ch (List.mem_cons_self _ rest)
    have hrender : renderChunks (ch :: rest) = renderChunk ch ++ renderChunks rest := by
      simp [renderChunks]
    rw [hrender]
    cases ch with
    | text s =>
      have hs : ∀ c ∈ s, (c == escChar) = false := by
        intro c hc
        have := List.all_eq_true.mp hch c hc
        simpa using this
      show stripGo .ground (s ++ renderChunks rest) = plainText (.text s :: rest)
      rw [stripGo_ground_append s (renderChunks rest) hs, hrest]
      rfl
    | colorCode p f =>
      have hp : ∀ c ∈ p, isCsiFinal c = false := by
        intro c hc
        have h1 := (Bool.and_eq_true _ _).mp hch
        have := List.all_eq_true.mp h1.1 c hc
        simpa using this
      have hf : isCsiFinal f = true := ((Bool.and_eq_true _ _).mp hch).2
      show stripGo .ground
          (escChar :: '[' :: (p ++ [f]) ++ renderChunks rest) = plainText (_ :: rest)
      rw [List.cons_append, List.cons_append]
      simp only [stripGo, if_pos rfl]
      have hassoc : (p ++ [f]) ++ renderChunks rest = p ++ f :: renderChunks rest := by
        rw [List.append_assoc]
        rfl
      rw [hassoc, stripGo_csi_skip p f (renderChunks rest) hp hf, hrest]
      rfl

/-- Witness for `strip_ansi_removes_sequences` at the spec's concrete
input: the captured output with a red color code sanitizes to exactly the
word it wraps, with no escape character left. -/
theorem strip_ansi_removes_sequences_witness :
    stripAnsiEscapes ("\x1b[31merror\x1b[0m".data) = "error".data
    ∧ escChar ∉ "error".data := by
  have h := strip_ansi_removes_sequences
    [Chunk.colorCode ['3', '1'] 'm', Chunk.text "error".data,
      Chunk.colorCode ['0'] 'm'] (by decide)
  have hrender : renderChunks
      [Chunk.colorCode ['3', '1'] 'm', Chunk.text "error".data,
        Chunk.colorCode ['0'] 'm'] = "\x1b[31merror\x1b[0m".data := by decide
  have hplain : plainText
      [Chunk.colorCode ['3', '1'] 'm', Chunk.text "error".data,
        Chunk.colorCode ['0'] 'm'] = "error".data := by decide
  constructor
  · rw [← hrender, h.1, hplain]
  · rw [← hplain]
    exact h.2

end Rustlings
